import Mathlib

/-!
Shallow embedding of the ADaaS actuarial computation engine
(mortality life tables, Whittaker–Henderson graduation, moving-average
smoothing, chain-ladder reserving, survival-data cleaning and Cox-model
control flow), with theorems settling the specification claims.

Numeric values are modelled by rationals, so every identity claimed by
the source's algebra is exact.  Each definition is a direct translation
of the corresponding Python function from the repository sources.
-/

set_option autoImplicit false

namespace ADaaS

/-! ### Life table construction

Embedding of mortality_models.compute_life_table.  The source fills
arrays by forward recursion (lx, dx), a trapezoidal column (Lx), a
backward recursion (Tx), and a guarded division (ex).  Missing indices
read through List.getD with default 0, which is never reached at the
indices the source touches. -/

/-- Survivor column: lx[0] = radix, lx[i+1] = lx[i] - lx[i]*qx[i]. -/
def lx (qx : List ℚ) (radix : ℚ) : ℕ → ℚ
  | 0 => radix
  | i + 1 => lx qx radix i - lx qx radix i * qx.getD i 0

/-- Deaths column: dx[i] = lx[i] * qx[i]. -/
def dx (qx : List ℚ) (radix : ℚ) (i : ℕ) : ℚ :=
  lx qx radix i * qx.getD i 0

/-- Person-years column: Lx[i] = (lx[i] + lx[i+1]) / 2. -/
def Lx (qx : List ℚ) (radix : ℚ) (i : ℕ) : ℚ :=
  (lx qx radix i + lx qx radix (i + 1)) / 2

/-- Total person-years column, computed backward from the last interval:
Tx[n-1] = Lx[n-1] and Tx[i] = Tx[i+1] + Lx[i] for i < n-1. -/
def Tx (qx : List ℚ) (radix : ℚ) (i : ℕ) : ℚ :=
  if h : i + 1 < qx.length then Tx qx radix (i + 1) + Lx qx radix i
  else Lx qx radix i
termination_by qx.length - i
decreasing_by omega

/-- Life expectancy column: ex[i] = Tx[i] / lx[i] when lx[i] > 0, else 0. -/
def ex (qx : List ℚ) (radix : ℚ) (i : ℕ) : ℚ :=
  if 0 < lx qx radix i then Tx qx radix i / lx qx radix i else 0

lemma lx_zero (qx : List ℚ) (radix : ℚ) : lx qx radix 0 = radix := rfl

lemma lx_succ (qx : List ℚ) (radix : ℚ) (i : ℕ) :
    lx qx radix (i + 1) = lx qx radix i - dx qx radix i := rfl

lemma getD_mem_bounds {qx : List ℚ} (hq : ∀ q ∈ qx, 0 ≤ q ∧ q ≤ 1) (i : ℕ) :
    0 ≤ qx.getD i 0 ∧ qx.getD i 0 ≤ 1 := by
  by_cases h : i < qx.length
  · have hm : qx.getD i 0 = qx.get ⟨i, h⟩ := by
      simp [List.getD_eq_getElem?_getD, List.getElem?_eq_getElem h]
    rw [hm]
    exact hq _ (qx.get_mem i h)
  · have : qx.getD i 0 = 0 := by
      simp [List.getD_eq_getElem?_getD, List.getElem?_eq_none (le_of_not_lt h)]
    rw [this]
    norm_num

lemma lx_nonneg {qx : List ℚ} {radix : ℚ} (hr : 0 ≤ radix)
    (hq : ∀ q ∈ qx, 0 ≤ q ∧ q ≤ 1) : ∀ i, 0 ≤ lx qx radix i := by
  intro i
  induction i with
  | zero => exact hr
  | succ i ih =>
      have hb := getD_mem_bounds hq i
      have : lx qx radix (i + 1) = lx qx radix i * (1 - qx.getD i 0) := by
        rw [lx_succ]; unfold dx; ring
      rw [this]
      exact mul_nonneg ih (by linarith [hb.2])

lemma lx_antitone {qx : List ℚ} {radix : ℚ} (hr : 0 ≤ radix)
    (hq : ∀ q ∈ qx, 0 ≤ q ∧ q ≤ 1) (i : ℕ) :
    lx qx radix (i + 1) ≤ lx qx radix i := by
  have hb := getD_mem_bounds hq i
  have hn := lx_nonneg hr hq i
  rw [lx_succ]
  unfold dx
  nlinarith [hb.1, hb.2]

lemma Tx_last (qx : List ℚ) (radix : ℚ) (h : qx ≠ []) :
    Tx qx radix (qx.length - 1) = Lx qx radix (qx.length - 1) := by
  have hlen : 0 < qx.length := List.length_pos.mpr h
  rw [Tx]
  have : ¬ (qx.length - 1 + 1 < qx.length) := by omega
  simp [this]

lemma Tx_step (qx : List ℚ) (radix : ℚ) (i : ℕ) (h : i + 1 < qx.length) :
    Tx qx radix i = Tx qx radix (i + 1) + Lx qx radix i := by
  rw [Tx]; simp [h]

/-- C1: for every qx series with elements in [0,1] (and any nonnegative
radix), the life table satisfies all the stated invariants: lx starts at
the radix and is non-increasing, dx[i] = lx[i]*qx[i], lx[i+1] = lx[i] -
dx[i], Tx[last] = Lx[last], Tx[i] = Tx[i+1] + Lx[i] for earlier i, and
ex[i] = Tx[i]/lx[i] with ex[i] = 0 when lx[i] = 0. -/
theorem life_table_invariants (qx : List ℚ) (radix : ℚ)
    (hr : 0 ≤ radix) (hq : ∀ q ∈ qx, 0 ≤ q ∧ q ≤ 1) :
    lx qx radix 0 = radix ∧
    (∀ i, lx qx radix (i + 1) ≤ lx qx radix i) ∧
    (∀ i, dx qx radix i = lx qx radix i * qx.getD i 0) ∧
    (∀ i, lx qx radix (i + 1) = lx qx radix i - dx qx radix i) ∧
    (qx ≠ [] → Tx qx radix (qx.length - 1) = Lx qx radix (qx.length - 1)) ∧
    (∀ i, i + 1 < qx.length → Tx qx radix i = Tx qx radix (i + 1) + Lx qx radix i) ∧
    (∀ i, (lx qx radix i ≠ 0 → ex qx radix i = Tx qx radix i / lx qx radix i) ∧
          (lx qx radix i = 0 → ex qx radix i = 0)) := by
  refine ⟨rfl, fun i => lx_antitone hr hq i, fun i => rfl, fun i => rfl,
    Tx_last qx radix, Tx_step qx radix, fun i => ⟨fun hne => ?_, fun h0 => ?_⟩⟩
  · have hpos : 0 < lx qx radix i := lt_of_le_of_ne (lx_nonneg hr hq i) (Ne.symm hne)
    simp [ex, hpos]
  · simp [ex, h0]

/-- Witness instantiating the life-table invariants at a concrete table. -/
theorem life_table_invariants_witness :
    (0 : ℚ) ≤ 100000 ∧
    (lx [1/2, 1/4] 100000 0 = 100000 ∧
     (∀ i, lx [1/2, 1/4] 100000 (i + 1) ≤ lx [1/2, 1/4] 100000 i) ∧
     (∀ i, dx [1/2, 1/4] 100000 i = lx [1/2, 1/4] 100000 i * ([1/2, 1/4] : List ℚ).getD i 0) ∧
     (∀ i, lx [1/2, 1/4] 100000 (i + 1) = lx [1/2, 1/4] 100000 i - dx [1/2, 1/4] 100000 i) ∧
     (([1/2, 1/4] : List ℚ) ≠ [] →
       Tx [1/2, 1/4] 100000 (([1/2, 1/4] : List ℚ).length - 1) =
         Lx [1/2, 1/4] 100000 (([1/2, 1/4] : List ℚ).length - 1)) ∧
     (∀ i, i + 1 < ([1/2, 1/4] : List ℚ).length →
       Tx [1/2, 1/4] 100000 i = Tx [1/2, 1/4] 100000 (i + 1) + Lx [1/2, 1/4] 100000 i) ∧
     (∀ i, (lx [1/2, 1/4] 100000 i ≠ 0 →
              ex [1/2, 1/4] 100000 i = Tx [1/2, 1/4] 100000 i / lx [1/2, 1/4] 100000 i) ∧
           (lx [1/2, 1/4] 100000 i = 0 → ex [1/2, 1/4] 100000 i = 0))) :=
  ⟨by norm_num,
   life_table_invariants [1/2, 1/4] 100000 (by norm_num)
     (by intro q hq; simp at hq; rcases hq with h | h <;> rw [h] <;> norm_num)⟩

/-! ### Chain-ladder reserving

Embedding of reserving_chainladder.py.  A triangle is a list of origin
rows; each row is a list of optional cells (a missing cell is the NaN
produced by coercing a non-numeric entry).  Development columns are
indexed 0 .. nDev-1. -/

/-- Cell access in a triangle row (out-of-range reads as missing). -/
def cell (row : List (Option ℚ)) (i : ℕ) : Option ℚ := row.getD i none

/-- Rows of the triangle in which both column i and column i+1 are
populated: the valid mask of compute_development_factors. -/
def validRows (tri : List (List (Option ℚ))) (i : ℕ) : List (List (Option ℚ)) :=
  tri.filter (fun row => (cell row i).isSome && (cell row (i + 1)).isSome)

/-- Column sum over a set of rows, as in triangle.loc[mask, col].sum(). -/
def sumCol (rows : List (List (Option ℚ))) (i : ℕ) : ℚ :=
  (rows.map (fun row => (cell row i).getD 0)).sum

/-- Single age-to-age factor: 1.0 when no row has both cells or the
current-column sum is zero, else the sum-to-sum ratio. -/
def devFactor (tri : List (List (Option ℚ))) (i : ℕ) : ℚ :=
  if (validRows tri i).length = 0 then 1
  else if sumCol (validRows tri i) i = 0 then 1
  else sumCol (validRows tri i) (i + 1) / sumCol (validRows tri i) i

/-- Embedding of compute_development_factors: one factor per adjacent
pair of development columns. -/
def compute_development_factors (nDev : ℕ) (tri : List (List (Option ℚ))) : List ℚ :=
  (List.range (nDev - 1)).map (devFactor tri)

/-- Downward scan for the latest populated cell, mirroring the loop
for age in range(n_dev - 1, -1, -1) in project_ultimate. -/
def latestCellAux (row : List (Option ℚ)) : ℕ → Option (ℕ × ℚ)
  | 0 => none
  | a + 1 =>
    match cell row a with
    | some v => some (a, v)
    | none => latestCellAux row a

/-- Embedding of the per-row body of project_ultimate. -/
def projectRow (nDev : ℕ) (factors : List ℚ) (row : List (Option ℚ)) : ℚ :=
  match latestCellAux row nDev with
  | none => 0
  | some (a, v) =>
      (List.range' a (nDev - 1 - a)).foldl (fun acc j => acc * factors.getD j 1) v

/-- Embedding of the per-row body of get_latest_diagonal. -/
def latestDiagRow (row : List (Option ℚ)) : ℚ :=
  match latestCellAux row row.length with
  | none => 0
  | some (_, v) => v

/-- Result record of run_chain_ladder_from_csv. -/
structure ReservingResult where
  development_factors : List ℚ
  n_origin : ℕ
  n_dev : ℕ
  reserve_estimate : ℚ
deriving DecidableEq

/-- Validation failure of the reserving engine (the source raises
ValueError for a triangle with fewer than 2 development periods). -/
inductive ReservingError
  | insufficientDev
deriving DecidableEq

/-- Embedding of run_chain_ladder_from_csv after CSV parsing: validate
the development-column count, then compute factors, ultimates and the
reserve estimate. -/
def run_chain_ladder (nDev : ℕ) (tri : List (List (Option ℚ))) :
    Except ReservingError ReservingResult :=
  if nDev < 2 then .error .insufficientDev
  else
    let factors := compute_development_factors nDev tri
    let ultimate := tri.map (projectRow nDev factors)
    let latest := tri.map latestDiagRow
    .ok ⟨factors, tri.length, nDev,
      (List.zipWith (fun u l => u - l) ultimate latest).sum⟩

/-- Boolean success test on an Except value. -/
def exceptOk {ε α : Type} : Except ε α → Bool
  | .ok _ => true
  | .error _ => false

instance {ε α : Type} [DecidableEq ε] [DecidableEq α] : DecidableEq (Except ε α) :=
  fun x y =>
  match x, y with
  | .ok a, .ok b =>
      if h : a = b then .isTrue (by rw [h])
      else .isFalse (by intro hc; cases hc; exact h rfl)
  | .error a, .error b =>
      if h : a = b then .isTrue (by rw [h])
      else .isFalse (by intro hc; cases hc; exact h rfl)
  | .ok _, .error _ => .isFalse (by intro hc; cases hc)
  | .error _, .ok _ => .isFalse (by intro hc; cases hc)

lemma getD_map_range {α : Type} (d : α) (n : ℕ) (f : ℕ → α) {i : ℕ} (h : i < n) :
    ((List.range n).map f).getD i d = f i := by
  simp [List.getD_eq_getElem?_getD, List.getElem?_range h]

/-- C2: for every triangle with at least two development columns there
is one factor per adjacent column pair; each factor is the sum of the
next column over the sum of the current column restricted to rows where
both cells are present, and defaults to 1 when no such row exists or
the denominator sum is zero. -/
theorem development_factors_sum_to_sum (nDev : ℕ) (tri : List (List (Option ℚ)))
    (h2 : 2 ≤ nDev) :
    (compute_development_factors nDev tri).length = nDev - 1 ∧
    ∀ i, i < nDev - 1 →
      ((validRows tri i = [] ∨ sumCol (validRows tri i) i = 0) →
          (compute_development_factors nDev tri).getD i 0 = 1) ∧
      (sumCol (validRows tri i) i ≠ 0 →
          (compute_development_factors nDev tri).getD i 0 =
            sumCol (validRows tri i) (i + 1) / sumCol (validRows tri i) i) := by
  refine ⟨by simp [compute_development_factors], fun i hi => ⟨fun hdeg => ?_, fun hne => ?_⟩⟩
  · rw [compute_development_factors, getD_map_range 0 _ _ hi]
    rcases hdeg with hempty | hzero
    · simp [devFactor, hempty]
    · unfold devFactor
      by_cases hlen : (validRows tri i).length = 0 <;> simp [hlen, hzero]
  · have hlen : (validRows tri i).length ≠ 0 := by
      intro h0
      exact hne (by rw [List.length_eq_zero.mp h0]; rfl)
    rw [compute_development_factors, getD_map_range 0 _ _ hi]
    simp [devFactor, hlen, hne]

/-- Witness applying the development-factor theorem to a concrete
two-column triangle. -/
theorem development_factors_witness :
    (compute_development_factors 2 [[some 100, some 150], [some 200, none]]).length = 1 :=
  (development_factors_sum_to_sum 2 [[some 100, some 150], [some 200, none]]
    (by norm_num)).1

/-- C4 counterexample: a triangle with two development columns but only
one origin row is accepted by the reserving computation, although the
claim requires an InsufficientDataError for fewer than 2 origin rows. -/
theorem single_origin_row_not_rejected :
    ([[some 100, some 150]] : List (List (Option ℚ))).length = 1 ∧
    exceptOk (run_chain_ladder 2 [[some 100, some 150]]) = true := by
  constructor
  · rfl
  · rfl

/-- C4 amended: the reserving computation rejects the triangle exactly
when it has fewer than 2 development columns; the origin-row count is
never validated. -/
theorem run_chain_ladder_ok_iff (nDev : ℕ) (tri : List (List (Option ℚ))) :
    exceptOk (run_chain_ladder nDev tri) = true ↔ 2 ≤ nDev := by
  unfold run_chain_ladder
  by_cases h : nDev < 2
  · simp only [if_pos h]
    constructor
    · intro hfalse; exact absurd hfalse (by simp [exceptOk])
    · intro hge; omega
  · simp only [if_neg h]
    constructor
    · intro _; omega
    · intro _; rfl

lemma latestCellAux_none_iff (row : List (Option ℚ)) :
    ∀ n, latestCellAux row n = none ↔ ∀ a, a < n → cell row a = none := by
  intro n
  induction n with
  | zero => simp [latestCellAux]
  | succ n ih =>
      cases h : cell row n with
      | some v =>
          simp only [latestCellAux, h]
          constructor
          · intro hfalse; cases hfalse
          · intro hall; exact absurd (hall n (Nat.lt_succ_self n)) (by simp [h])
      | none =>
          simp only [latestCellAux, h]
          rw [ih]
          constructor
          · intro hall a ha
            rcases Nat.lt_succ_iff_lt_or_eq.mp ha with ha' | ha'
            · exact hall a ha'
            · rw [ha']; exact h
          · intro hall a ha; exact hall a (Nat.lt_succ_of_lt ha)

lemma latestCellAux_some_iff (row : List (Option ℚ)) (a : ℕ) (v : ℚ) :
    ∀ n, latestCellAux row n = some (a, v) ↔
      a < n ∧ cell row a = some v ∧ ∀ j, a < j → j < n → cell row j = none := by
  intro n
  induction n with
  | zero => simp [latestCellAux]
  | succ n ih =>
      cases h : cell row n with
      | some w =>
          simp only [latestCellAux, h, Option.some.injEq, Prod.mk.injEq]
          constructor
          · rintro ⟨rfl, rfl⟩
            exact ⟨Nat.lt_succ_self _, h, fun j hj hj' => by omega⟩
          · rintro ⟨ha, hav, hnone⟩
            rcases Nat.lt_succ_iff_lt_or_eq.mp ha with ha' | ha'
            · exact absurd (hnone n ha' (Nat.lt_succ_self n)) (by simp [h])
            · refine ⟨ha'.symm, ?_⟩
              rw [ha'] at hav
              rw [h] at hav
              exact Option.some.inj hav
      | none =>
          simp only [latestCellAux, h]
          rw [ih]
          constructor
          · rintro ⟨ha, hav, hnone⟩
            refine ⟨Nat.lt_succ_of_lt ha, hav, fun j hj hj' => ?_⟩
            rcases Nat.lt_succ_iff_lt_or_eq.mp hj' with hj'' | hj''
            · exact hnone j hj hj''
            · rw [hj'']; exact h
          · rintro ⟨ha, hav, hnone⟩
            rcases Nat.lt_succ_iff_lt_or_eq.mp ha with ha' | ha'
            · exact ⟨ha', hav, fun j hj hj' => hnone j hj (Nat.lt_succ_of_lt hj')⟩
            · rw [ha'] at hav
              rw [h] at hav
              cases hav

lemma foldl_mul_getD (f : List ℚ) :
    ∀ (l : List ℕ) (v : ℚ),
      l.foldl (fun acc j => acc * f.getD j 1) v =
        v * (l.map (fun j => f.getD j 1)).prod := by
  intro l
  induction l with
  | nil => intro v; simp
  | cons j l ih =>
      intro v
      rw [List.foldl_cons, ih, List.map_cons, List.prod_cons, mul_assoc]

lemma zipWith_sub_map_sum (f g : List (Option ℚ) → ℚ) :
    ∀ l : List (List (Option ℚ)),
      (List.zipWith (fun u w => u - w) (l.map f) (l.map g)).sum =
        (l.map (fun row => f row - g row)).sum := by
  intro l
  induction l with
  | nil => rfl
  | cons row l ih => simp [ih]

/-- C3: whenever the reserving computation succeeds, the reserve
estimate is the sum over origin rows of (ultimate minus latest
diagonal); each row's ultimate is its latest populated cell multiplied
through the remaining development factors up to the final column (and
that cell is also the latest diagonal value); an all-missing row has
ultimate 0 and latest diagonal 0, contributing zero to the reserve. -/
theorem chain_ladder_ultimate_reserve (nDev : ℕ) (tri : List (List (Option ℚ)))
    (hrect : ∀ row ∈ tri, row.length = nDev)
    (r : ReservingResult) (hr : run_chain_ladder nDev tri = .ok r) :
    r.reserve_estimate =
      (tri.map (fun row =>
        projectRow nDev (compute_development_factors nDev tri) row - latestDiagRow row)).sum ∧
    (∀ row ∈ tri, ∀ a v, a < nDev → cell row a = some v →
        (∀ j, a < j → j < nDev → cell row j = none) →
        projectRow nDev (compute_development_factors nDev tri) row =
          v * ((List.range' a (nDev - 1 - a)).map
                (fun j => (compute_development_factors nDev tri).getD j 1)).prod ∧
        latestDiagRow row = v) ∧
    (∀ row ∈ tri, (∀ j, j < nDev → cell row j = none) →
        projectRow nDev (compute_development_factors nDev tri) row = 0 ∧
        latestDiagRow row = 0) := by
  refine ⟨?_, fun row hrow a v ha hav hnone => ?_, fun row hrow hall => ?_⟩
  · by_cases h : nDev < 2
    · rw [run_chain_ladder, if_pos h] at hr; cases hr
    · rw [run_chain_ladder, if_neg h] at hr
      have hres := congrArg ReservingResult.reserve_estimate (Except.ok.inj hr)
      rw [← hres]
      exact zipWith_sub_map_sum _ _ tri
  · have hlatest : latestCellAux row nDev = some (a, v) :=
      (latestCellAux_some_iff row a v nDev).mpr ⟨ha, hav, hnone⟩
    constructor
    · rw [projectRow, hlatest]
      exact foldl_mul_getD _ _ v
    · rw [latestDiagRow, hrect row hrow, hlatest]
  · have hlatest : latestCellAux row nDev = none :=
      (latestCellAux_none_iff row nDev).mpr (fun j hj => hall j hj)
    constructor
    · rw [projectRow, hlatest]
    · rw [latestDiagRow, hrect row hrow, hlatest]

/-- Concrete two-origin triangle used to instantiate the chain-ladder
theorem. -/
def exTri : List (List (Option ℚ)) := [[some 100, some 150], [some 200, none]]

/-- Reserving result on exTri (spelled as run_chain_ladder produces it,
so that the success hypothesis of the witness holds definitionally). -/
def exRes : ReservingResult :=
  ⟨compute_development_factors 2 exTri, exTri.length, 2,
    (List.zipWith (fun u l => u - l)
      (exTri.map (projectRow 2 (compute_development_factors 2 exTri)))
      (exTri.map latestDiagRow)).sum⟩

/-- Witness applying the chain-ladder theorem to exTri. -/
theorem chain_ladder_witness :
    exRes.reserve_estimate =
      (exTri.map (fun row =>
        projectRow 2 (compute_development_factors 2 exTri) row - latestDiagRow row)).sum ∧
    (∀ row ∈ exTri, ∀ a v, a < 2 → cell row a = some v →
        (∀ j, a < j → j < 2 → cell row j = none) →
        projectRow 2 (compute_development_factors 2 exTri) row =
          v * ((List.range' a (2 - 1 - a)).map
                (fun j => (compute_development_factors 2 exTri).getD j 1)).prod ∧
        latestDiagRow row = v) ∧
    (∀ row ∈ exTri, (∀ j, j < 2 → cell row j = none) →
        projectRow 2 (compute_development_factors 2 exTri) row = 0 ∧
        latestDiagRow row = 0) :=
  chain_ladder_ultimate_reserve 2 exTri (by decide) exRes rfl

/-! ### Survival data cleaning and Cox-model control flow

Embedding of survival_models.py.  A raw observation row carries the
time and event values after the numeric coercion of the source
(pd.to_numeric with errors coerce): a missing or non-numeric entry is
none.  Rows kept for analysis are pairs of rationals. -/

/-- Row cleaning of compute_survival_dashboard: drop every row whose
time or event is missing, keep the rest in order. -/
def cleanRows (raw : List (Option ℚ × Option ℚ)) : List (ℚ × ℚ) :=
  raw.filterMap (fun p =>
    match p.1, p.2 with
    | some t, some e => some (t, e)
    | _, _ => none)

/-- Validation failure of the survival engine (the source raises
ValueError when no valid data rows remain after cleaning). -/
inductive SurvivalError
  | emptyDataset
deriving DecidableEq

/-- Embedding of the cleaning-plus-validation step of
compute_survival_dashboard. -/
def clean_and_validate (raw : List (Option ℚ × Option ℚ)) :
    Except SurvivalError (List (ℚ × ℚ)) :=
  if (cleanRows raw).length = 0 then .error .emptyDataset
  else .ok (cleanRows raw)

/-- C6: rows with missing time or event are dropped (the kept rows are
exactly the fully populated ones, in order), the computation fails with
the empty-dataset error exactly when every raw row has a missing time
or event, and on success the returned row list is the nonempty cleaned
list. -/
theorem survival_cleaning_empty_check (raw : List (Option ℚ × Option ℚ)) :
    (cleanRows raw = (raw.filter (fun p => p.1.isSome && p.2.isSome)).map
        (fun p => (p.1.getD 0, p.2.getD 0))) ∧
    (clean_and_validate raw = .error .emptyDataset ↔
        ∀ p ∈ raw, p.1 = none ∨ p.2 = none) ∧
    (∀ l, clean_and_validate raw = .ok l → l = cleanRows raw ∧ l ≠ []) := by
  refine ⟨?_, ?_, ?_⟩
  · induction raw with
    | nil => rfl
    | cons p raw ih =>
        rcases p with ⟨t, e⟩
        cases t <;> cases e <;> simp [cleanRows, List.filterMap_cons, ih] <;>
          simp [cleanRows] at ih <;> exact ih
  · rw [clean_and_validate]
    constructor
    · intro herr p hp
      by_cases hlen : (cleanRows raw).length = 0
      · have hnil : cleanRows raw = [] := List.length_eq_zero.mp hlen
        have hnone := (List.filterMap_eq_nil_iff.mp hnil) p hp
        rcases p with ⟨t, e⟩
        cases t <;> cases e <;> simp_all
      · rw [if_neg hlen] at herr; cases herr
    · intro hall
      have hnil : cleanRows raw = [] := List.filterMap_eq_nil_iff.mpr (by
        intro p hp
        rcases p with ⟨t, e⟩
        rcases hall (t, e) hp with h | h
        · simp only at h
          subst h
          rfl
        · simp only at h
          subst h
          cases t <;> rfl)
      rw [if_pos (by rw [hnil]; rfl)]
  · intro l hl
    rw [clean_and_validate] at hl
    by_cases hlen : (cleanRows raw).length = 0
    · rw [if_pos hlen] at hl; cases hl
    · rw [if_neg hlen] at hl
      refine ⟨(Except.ok.inj hl).symm, ?_⟩
      intro hnil
      rw [hnil] at hl
      exact hlen (by rw [Except.ok.inj hl]; rfl)

/-- Witness applying the cleaning theorem to a concrete one-row
dataset. -/
theorem survival_cleaning_witness :
    ([((1 : ℚ), (0 : ℚ))] = cleanRows [(some 1, some 0)]) ∧
    ([((1 : ℚ), (0 : ℚ))] : List (ℚ × ℚ)) ≠ [] :=
  (survival_cleaning_empty_check [(some 1, some 0)]).2.2 [(1, 0)] rfl

/-- Observation row for the Cox sub-computation: cleaned time and
event values plus the values of the numeric covariate columns (a
missing covariate cell is none). -/
structure SurvRow where
  time : ℚ
  event : ℚ
  covs : List (Option ℚ)
deriving DecidableEq

/-- Result record of compute_cox_model: optional concordance, summary
rows, optional caught error.  The error and summary payloads are
abstract types because the source treats them opaquely. -/
structure CoxResult (μ τ : Type) where
  concordance : Option ℚ
  summary : List τ
  error : Option μ

/-- Embedding of compute_cox_model.  The external partial-likelihood
fit (lifelines CoxPHFitter, a third-party library outside this
repository) is a parameter returning either a concordance and summary
rows or a caught exception message; the function itself never fails. -/
def compute_cox_model {σ μ τ : Type} (covNames : List σ) (rows : List SurvRow)
    (fit : List SurvRow → Except μ (ℚ × List τ)) : CoxResult μ τ :=
  if covNames.length = 0 ∨ rows.length < 10 then ⟨none, [], none⟩
  else
    let coxRows := rows.filter (fun r => r.covs.all (fun c => c.isSome))
    if coxRows.length < 10 then ⟨none, [], none⟩
    else
      match fit coxRows with
      | .ok (c, s) => ⟨some c, s, none⟩
      | .error m => ⟨none, [], some m⟩

/-- C5: the Cox sub-computation is a total function that soft-degrades:
with no covariates or fewer than 10 fully populated rows it returns
exactly (concordance none, empty summary, no error); when the fit is
reached and throws, the message is caught and returned inside the
result; when the fit succeeds its concordance and summary are
returned. -/
theorem cox_soft_degrade {σ μ τ : Type} (covNames : List σ) (rows : List SurvRow)
    (fit : List SurvRow → Except μ (ℚ × List τ)) :
    (covNames = [] ∨
        (rows.filter (fun r => r.covs.all (fun c => c.isSome))).length < 10 →
      compute_cox_model covNames rows fit = ⟨none, [], none⟩) ∧
    (∀ m, covNames ≠ [] → 10 ≤ rows.length →
      10 ≤ (rows.filter (fun r => r.covs.all (fun c => c.isSome))).length →
      fit (rows.filter (fun r => r.covs.all (fun c => c.isSome))) = .error m →
      compute_cox_model covNames rows fit = ⟨none, [], some m⟩) ∧
    (∀ c s, covNames ≠ [] → 10 ≤ rows.length →
      10 ≤ (rows.filter (fun r => r.covs.all (fun c => c.isSome))).length →
      fit (rows.filter (fun r => r.covs.all (fun c => c.isSome))) = .ok (c, s) →
      compute_cox_model covNames rows fit = ⟨some c, s, none⟩) := by
  refine ⟨fun hdeg => ?_, fun m hcov h10 hf10 hfit => ?_, fun c s hcov h10 hf10 hfit => ?_⟩
  · rcases hdeg with hnil | hfew
    · rw [compute_cox_model, if_pos (Or.inl (by rw [hnil]; rfl))]
    · by_cases hlen : covNames.length = 0 ∨ rows.length < 10
      · rw [compute_cox_model, if_pos hlen]
      · rw [compute_cox_model, if_neg hlen, if_pos hfew]
  · have hne : ¬ (covNames.length = 0 ∨ rows.length < 10) := by
      push_neg
      exact ⟨fun h0 => hcov (List.length_eq_zero.mp h0), h10⟩
    rw [compute_cox_model, if_neg hne, if_neg (by omega), hfit]
  · have hne : ¬ (covNames.length = 0 ∨ rows.length < 10) := by
      push_neg
      exact ⟨fun h0 => hcov (List.length_eq_zero.mp h0), h10⟩
    rw [compute_cox_model, if_neg hne, if_neg (by omega), hfit]

/-- Ten fully populated survival rows with one covariate column. -/
def wRows : List SurvRow := List.replicate 10 ⟨1, 1, [some 1]⟩

/-- Witness applying the Cox soft-degrade theorem with no covariates
and with a failing fit. -/
theorem cox_soft_degrade_witness :
    compute_cox_model ([] : List ℕ) wRows
        (fun _ => (.ok (1, []) : Except ℕ (ℚ × List ℕ))) = ⟨none, [], none⟩ ∧
    compute_cox_model [0] wRows
        (fun _ => (.error 7 : Except ℕ (ℚ × List ℕ))) = ⟨none, [], some 7⟩ :=
  ⟨(cox_soft_degrade [] wRows _).1 (Or.inl rfl),
   (cox_soft_degrade [0] wRows _).2.1 7 (by decide) (by decide) (by decide) rfl⟩

/-! ### Mortality input rescaling

Embedding of the qx normalization of compute_mortality_dashboard:
series whose maximum exceeds 1 are divided by 1000 (maximum above 100)
or by 100 (otherwise). -/

/-- Maximum of a series, as the source's qx_raw.max() on a nonempty
array (0 on the empty array, which the source never queries). -/
def listMax : List ℚ → ℚ
  | [] => 0
  | x :: xs => xs.foldl max x

/-- Minimum of a series, as a nonempty array minimum. -/
def listMin : List ℚ → ℚ
  | [] => 0
  | x :: xs => xs.foldl min x

/-- Embedding of the scale-normalization branch of
compute_mortality_dashboard. -/
def rescale_qx (qx : List ℚ) : List ℚ :=
  if 1 < listMax qx then
    if 100 < listMax qx then qx.map (fun q => q / 1000)
    else qx.map (fun q => q / 100)
  else qx

lemma le_foldl_max (xs : List ℚ) : ∀ a : ℚ, a ≤ xs.foldl max a := by
  induction xs with
  | nil => intro a; exact le_refl a
  | cons y ys ih => intro a; exact le_trans (le_max_left a y) (ih (max a y))

lemma mem_le_foldl_max (xs : List ℚ) : ∀ (a x : ℚ), x ∈ xs → x ≤ xs.foldl max a := by
  induction xs with
  | nil => intro a x hx; cases hx
  | cons y ys ih =>
      intro a x hx
      rcases List.mem_cons.mp hx with rfl | hx'
      · exact le_trans (le_max_right a x) (le_foldl_max ys (max a x))
      · exact ih (max a y) x hx'

lemma foldl_max_le (xs : List ℚ) :
    ∀ a b : ℚ, a ≤ b → (∀ x ∈ xs, x ≤ b) → xs.foldl max a ≤ b := by
  induction xs with
  | nil => intro a b hab _; exact hab
  | cons y ys ih =>
      intro a b hab hall
      exact ih (max a y) b (max_le hab (hall y (List.mem_cons_self y ys)))
        (fun x hx => hall x (List.mem_cons_of_mem y hx))

lemma le_listMax {qx : List ℚ} (x : ℚ) (hx : x ∈ qx) : x ≤ listMax qx := by
  cases qx with
  | nil => cases hx
  | cons y ys =>
      rcases List.mem_cons.mp hx with rfl | hx'
      · exact le_foldl_max ys x
      · exact mem_le_foldl_max ys y x hx'

lemma listMax_le {qx : List ℚ} {b : ℚ} (hne : qx ≠ []) (hall : ∀ x ∈ qx, x ≤ b) :
    listMax qx ≤ b := by
  cases qx with
  | nil => exact absurd rfl hne
  | cons y ys =>
      exact foldl_max_le ys y b (hall y (List.mem_cons_self y ys))
        (fun x hx => hall x (List.mem_cons_of_mem y hx))

/-- C9 counterexample: the series [2000] lies outside [0,1], is
rescaled by the divide-by-1000 branch, and the rescaled value 2 is
still outside [0,1]. -/
theorem rescale_overflow_counterexample :
    rescale_qx [2000] = [2] ∧ ¬ ((2000 : ℚ) ≤ 1) ∧ ¬ ((2 : ℚ) ≤ 1) := by
  refine ⟨?_, by norm_num, by norm_num⟩
  have hm : listMax [2000] = 2000 := rfl
  rw [rescale_qx, hm, if_pos (by norm_num), if_pos (by norm_num)]
  simp only [List.map_cons, List.map_nil]
  norm_num

/-- C9 amended: the rescaling triggers exactly when the series maximum
exceeds 1 (dividing by 1000 above 100, by 100 otherwise), and it lands
elementwise in [0,1] provided the raw values are nonnegative and at
most 1000. -/
theorem rescale_bounds (qx : List ℚ) (hne : qx ≠ [])
    (hv : ∀ q ∈ qx, 0 ≤ q ∧ q ≤ 1000) :
    (listMax qx ≤ 1 → rescale_qx qx = qx) ∧
    (∀ y ∈ rescale_qx qx, 0 ≤ y ∧ y ≤ 1) := by
  constructor
  · intro hle; rw [rescale_qx, if_neg (not_lt.mpr hle)]
  · intro y hy
    rw [rescale_qx] at hy
    by_cases h1 : 1 < listMax qx
    · rw [if_pos h1] at hy
      by_cases h100 : 100 < listMax qx
      · rw [if_pos h100] at hy
        rcases List.mem_map.mp hy with ⟨q, hq, rfl⟩
        rcases hv q hq with ⟨h0, h1000⟩
        exact ⟨div_nonneg h0 (by norm_num), (div_le_one (by norm_num)).mpr h1000⟩
      · rw [if_neg h100] at hy
        rcases List.mem_map.mp hy with ⟨q, hq, rfl⟩
        rcases hv q hq with ⟨h0, _⟩
        refine ⟨div_nonneg h0 (by norm_num), (div_le_one (by norm_num)).mpr ?_⟩
        exact le_trans (le_listMax q hq) (not_lt.mp h100)
    · rw [if_neg h1] at hy
      rcases hv y hy with ⟨h0, _⟩
      exact ⟨h0, le_trans (le_listMax y hy) (not_lt.mp h1)⟩

/-- Witness applying the rescale-bounds theorem to a concrete series
with a percentage-scale maximum. -/
theorem rescale_bounds_witness :
    (listMax [1/2, 200] ≤ 1 → rescale_qx [1/2, 200] = [1/2, 200]) ∧
    (∀ y ∈ rescale_qx [1/2, 200], 0 ≤ y ∧ y ≤ 1) :=
  rescale_bounds [1/2, 200] (List.cons_ne_nil _ _)
    (by
      intro q hq
      simp only [List.mem_cons, List.not_mem_nil, or_false] at hq
      rcases hq with rfl | rfl <;> constructor <;> norm_num)

/-! ### Mortality dashboard KPIs

Embedding of the KPI block of compute_mortality_dashboard: life
expectancy at birth is ex[0], the median age at death is the age at the
np.argmin of |lx - radix/2| (np.argmin returns the first index
attaining the minimum), and total deaths is the sum of the dx
column. -/

/-- First index of the minimum of a list, as np.argmin. -/
def argminList : List ℚ → ℕ
  | [] => 0
  | [_] => 0
  | x :: y :: ys =>
    if x ≤ (y :: ys).getD (argminList (y :: ys)) 0 then 0
    else argminList (y :: ys) + 1

lemma argminList_spec : ∀ l : List ℚ, l ≠ [] →
    argminList l < l.length ∧
    (∀ i, i < l.length → l.getD (argminList l) 0 ≤ l.getD i 0) ∧
    (∀ i, i < argminList l → l.getD (argminList l) 0 < l.getD i 0) := by
  intro l
  induction l with
  | nil => intro h; exact absurd rfl h
  | cons x xs ih =>
      intro _
      cases xs with
      | nil =>
          refine ⟨by simp [argminList], fun i hi => ?_, fun i hi => ?_⟩
          · have hi0 : i = 0 := by
              simp only [List.length_cons, List.length_nil] at hi
              omega
            subst hi0
            exact le_refl _
          · exact absurd hi (by simp [argminList])
      | cons y ys =>
          obtain ⟨hlt, hmin, hfirst⟩ := ih (List.cons_ne_nil y ys)
          have hdef : argminList (x :: y :: ys) =
              if x ≤ (y :: ys).getD (argminList (y :: ys)) 0 then 0
              else argminList (y :: ys) + 1 := rfl
          by_cases hx : x ≤ (y :: ys).getD (argminList (y :: ys)) 0
          · have ha : argminList (x :: y :: ys) = 0 := by rw [hdef, if_pos hx]
            refine ⟨by rw [ha]; simp, fun i hi => ?_, fun i hi => ?_⟩
            · rw [ha, List.getD_cons_zero]
              cases i with
              | zero => rw [List.getD_cons_zero]
              | succ k =>
                  rw [List.getD_cons_succ]
                  refine le_trans hx (hmin k ?_)
                  simp only [List.length_cons] at hi ⊢
                  omega
            · rw [ha] at hi
              exact absurd hi (Nat.not_lt_zero i)
          · have ha : argminList (x :: y :: ys) = argminList (y :: ys) + 1 := by
              rw [hdef, if_neg hx]
            have hxgt : (y :: ys).getD (argminList (y :: ys)) 0 < x := not_le.mp hx
            refine ⟨?_, fun i hi => ?_, fun i hi => ?_⟩
            · rw [ha]
              simp only [List.length_cons]
              simp only [List.length_cons] at hlt
              omega
            · rw [ha, List.getD_cons_succ]
              cases i with
              | zero => rw [List.getD_cons_zero]; exact le_of_lt hxgt
              | succ k =>
                  rw [List.getD_cons_succ]
                  refine hmin k ?_
                  simp only [List.length_cons] at hi ⊢
                  omega
            · rw [ha] at hi
              rw [ha, List.getD_cons_succ]
              cases i with
              | zero => rw [List.getD_cons_zero]; exact hxgt
              | succ k =>
                  rw [List.getD_cons_succ]
                  exact hfirst k (Nat.lt_of_succ_lt_succ hi)

/-- KPI record of compute_mortality_dashboard. -/
structure MortalityKpis where
  life_expectancy_at_birth : ℚ
  median_age_at_death : ℚ
  total_deaths : ℚ

/-- Index selected by np.argmin of |lx - radix/2| over the life-table
rows (for a nonempty table the radix KPI read back from the table
equals lx[0] = radix). -/
def median_age_idx (qx : List ℚ) (radix : ℚ) : ℕ :=
  argminList ((List.range qx.length).map (fun i => |lx qx radix i - radix / 2|))

/-- Embedding of the KPI block of compute_mortality_dashboard. -/
def compute_kpis (ages qx : List ℚ) (radix : ℚ) : MortalityKpis :=
  ⟨if 0 < qx.length then ex qx radix 0 else 0,
   ages.getD (median_age_idx qx radix) 0,
   ((List.range qx.length).map (dx qx radix)).sum⟩

/-- Modelled from the claim's words, for comparison: the first index at
which the survivor count lx drops to or below half the radix. -/
def first_crossing_idx (qx : List ℚ) (radix : ℚ) : ℕ :=
  ((List.range qx.length).map (lx qx radix)).findIdx (fun v => decide (v ≤ radix / 2))

/-- C8 counterexample: on ages [0,1,2] with qx [2/5, 1/3, 1] the
survivor column is [100000, 60000, 40000]; lx first drops to or below
half the radix (50000) at age 2, but the dashboard reports the age
whose lx is nearest to 50000, namely age 1. -/
theorem median_age_counterexample :
    (compute_kpis [0, 1, 2] [2/5, 1/3, 1] 100000).median_age_at_death = 1 ∧
    first_crossing_idx [2/5, 1/3, 1] 100000 = 2 ∧
    ([0, 1, 2] : List ℚ).getD 2 0 = 2 ∧
    (1 : ℚ) ≠ 2 := by
  have e0 : lx [2/5, 1/3, 1] (100000 : ℚ) 0 = 100000 := rfl
  have e1 : lx [2/5, 1/3, 1] (100000 : ℚ) 1 = 60000 := by
    show (100000 : ℚ) - 100000 * (2/5) = 60000
    norm_num
  have e2 : lx [2/5, 1/3, 1] (100000 : ℚ) 2 = 40000 := by
    have h2 : lx [2/5, 1/3, 1] (100000 : ℚ) 2 =
        lx [2/5, 1/3, 1] (100000 : ℚ) 1 - lx [2/5, 1/3, 1] (100000 : ℚ) 1 * (1/3) := rfl
    rw [h2, e1]
    norm_num
  have hf0 : |lx [2/5, 1/3, 1] (100000 : ℚ) 0 - (100000 : ℚ) / 2| = 50000 := by
    rw [e0, show (100000 : ℚ) - 100000 / 2 = 50000 from by norm_num]
    exact abs_of_nonneg (by norm_num)
  have hf1 : |lx [2/5, 1/3, 1] (100000 : ℚ) 1 - (100000 : ℚ) / 2| = 10000 := by
    rw [e1, show (60000 : ℚ) - 100000 / 2 = 10000 from by norm_num]
    exact abs_of_nonneg (by norm_num)
  have hf2 : |lx [2/5, 1/3, 1] (100000 : ℚ) 2 - (100000 : ℚ) / 2| = 10000 := by
    rw [e2, show (40000 : ℚ) - 100000 / 2 = -10000 from by norm_num, abs_neg]
    exact abs_of_nonneg (by norm_num)
  have ha1 : argminList [(10000 : ℚ)] = 0 := rfl
  have ha2 : argminList [(10000 : ℚ), 10000] = 0 := by
    have hdef : argminList [(10000 : ℚ), 10000] =
        if (10000 : ℚ) ≤ [(10000 : ℚ)].getD (argminList [(10000 : ℚ)]) 0 then 0
        else argminList [(10000 : ℚ)] + 1 := rfl
    rw [hdef, ha1, List.getD_cons_zero, if_pos (le_refl _)]
  have ha3 : argminList [(50000 : ℚ), 10000, 10000] = 1 := by
    have hdef : argminList [(50000 : ℚ), 10000, 10000] =
        if (50000 : ℚ) ≤ [(10000 : ℚ), 10000].getD (argminList [(10000 : ℚ), 10000]) 0 then 0
        else argminList [(10000 : ℚ), 10000] + 1 := rfl
    rw [hdef, ha2, List.getD_cons_zero, if_neg (by norm_num)]
  have hmi : median_age_idx [2/5, 1/3, 1] 100000 = 1 := by
    rw [median_age_idx,
      show ([2/5, 1/3, 1] : List ℚ).length = 3 from rfl,
      show List.range 3 = [0, 1, 2] from rfl]
    simp only [List.map_cons, List.map_nil]
    rw [hf0, hf1, hf2, ha3]
  have hfc : first_crossing_idx [2/5, 1/3, 1] 100000 = 2 := by
    rw [first_crossing_idx,
      show ([2/5, 1/3, 1] : List ℚ).length = 3 from rfl,
      show List.range 3 = [0, 1, 2] from rfl]
    simp only [List.map_cons, List.map_nil]
    rw [e0, e1, e2]
    simp only [List.findIdx_cons]
    rw [decide_eq_false (by norm_num : ¬ ((100000 : ℚ) ≤ 100000 / 2)),
      decide_eq_false (by norm_num : ¬ ((60000 : ℚ) ≤ 100000 / 2)),
      decide_eq_true (by norm_num : ((40000 : ℚ) ≤ 100000 / 2))]
    rfl
  refine ⟨?_, hfc, rfl, by norm_num⟩
  have hk : (compute_kpis [0, 1, 2] [2/5, 1/3, 1] 100000).median_age_at_death =
      ([0, 1, 2] : List ℚ).getD (median_age_idx [2/5, 1/3, 1] 100000) 0 := rfl
  rw [hk, hmi]
  rfl

/-- C8 amended: for a nonempty table the KPI block returns life
expectancy at birth ex[0], total deaths the sum of dx, and as median
age at death the age at the first index minimizing the distance
|lx - radix/2| (np.argmin), which need not be the first index where lx
crosses radix/2. -/
theorem kpis_characterization (ages qx : List ℚ) (radix : ℚ) (hn : qx ≠ []) :
    (compute_kpis ages qx radix).life_expectancy_at_birth = ex qx radix 0 ∧
    (compute_kpis ages qx radix).total_deaths =
      ((List.range qx.length).map (dx qx radix)).sum ∧
    median_age_idx qx radix < qx.length ∧
    (compute_kpis ages qx radix).median_age_at_death =
      ages.getD (median_age_idx qx radix) 0 ∧
    (∀ i, i < qx.length →
      |lx qx radix (median_age_idx qx radix) - radix / 2| ≤ |lx qx radix i - radix / 2|) ∧
    (∀ i, i < median_age_idx qx radix →
      |lx qx radix (median_age_idx qx radix) - radix / 2| < |lx qx radix i - radix / 2|) := by
  have hn0 : qx.length ≠ 0 := fun h0 => hn (List.length_eq_zero.mp h0)
  have hLne : ((List.range qx.length).map (fun i => |lx qx radix i - radix / 2|)) ≠ [] := by
    intro hnil
    rcases List.map_eq_nil_iff.mp hnil with h
    exact hn0 (by rw [List.range_eq_nil] at h; exact h)
  obtain ⟨h1, h2, h3⟩ := argminList_spec _ hLne
  have hLlen : ((List.range qx.length).map (fun i => |lx qx radix i - radix / 2|)).length =
      qx.length := by
    rw [List.length_map, List.length_range]
  rw [hLlen] at h1
  refine ⟨?_, rfl, h1, rfl, fun i hi => ?_, fun i hi => ?_⟩
  · have hpos : 0 < qx.length := Nat.pos_of_ne_zero hn0
    simp [compute_kpis, hpos]
  · have hgi := h2 i (by rw [hLlen]; exact hi)
    rw [getD_map_range 0 _ _ h1, getD_map_range 0 _ _ hi] at hgi
    exact hgi
  · have hgi := h3 i hi
    rw [getD_map_range 0 _ _ h1, getD_map_range 0 _ _ (lt_trans hi h1)] at hgi
    exact hgi

/-- Witness applying the KPI characterization to a concrete table. -/
theorem kpis_characterization_witness :
    median_age_idx [1/2, 1/2] 100000 < ([1/2, 1/2] : List ℚ).length :=
  (kpis_characterization [0, 1] [1/2, 1/2] 100000 (List.cons_ne_nil _ _)).2.2.1

/-! ### Moving-average graduation

Embedding of moving_average_smooth: triangular (or uniform) weights
over a centred window, re-normalized over the shrunken window at the
series boundaries. -/

/-- Unnormalized triangular weights 1 + wl/2 - |j - wl/2| for
j < wl (integer division as in the source). -/
def triWeightsRaw (wl : ℕ) : List ℚ :=
  (List.range wl).map (fun (j : ℕ) =>
    1 + ((wl / 2 : ℕ) : ℚ) - |(j : ℚ) - ((wl / 2 : ℕ) : ℚ)|)

/-- Normalization of a weight vector by its sum. -/
def normalizeW (w : List ℚ) : List ℚ := w.map (fun x => x / w.sum)

/-- Uniform weights np.ones(wl)/wl. -/
def uniformW (wl : ℕ) : List ℚ := (List.range wl).map (fun _ => 1 / (wl : ℚ))

/-- Dot product of the window slice with the weight vector. -/
def dotL (v w : List ℚ) : ℚ := (List.zipWith (fun a b => a * b) v w).sum

/-- Window slice qx[s:e]. -/
def sliceL (qx : List ℚ) (s e : ℕ) : List ℚ := (qx.drop s).take (e - s)

/-- Smoothed value at position i for effective window size ws. -/
def maWindowValue (qx : List ℚ) (ws : ℕ) (weighted : Bool) (i : ℕ) : ℚ :=
  let n := qx.length
  let half := ws / 2
  let s := i - half
  let e := min n (i + half + 1)
  if i < half ∨ n - half ≤ i then
    dotL (sliceL qx s e)
      (if weighted then normalizeW (triWeightsRaw (e - s)) else uniformW (e - s))
  else
    dotL (sliceL qx s e)
      (if weighted then normalizeW (triWeightsRaw ws) else uniformW ws)

/-- Embedding of moving_average_smooth: force the window size odd,
then compute every window average. -/
def moving_average_smooth (qx : List ℚ) (windowSize : ℕ) (weighted : Bool) : List ℚ :=
  (List.range qx.length).map
    (maWindowValue qx (if windowSize % 2 = 0 then windowSize + 1 else windowSize) weighted)

lemma foldl_min_le (xs : List ℚ) : ∀ a : ℚ, xs.foldl min a ≤ a := by
  induction xs with
  | nil => intro a; exact le_refl a
  | cons y ys ih => intro a; exact le_trans (ih (min a y)) (min_le_left a y)

lemma foldl_min_le_mem (xs : List ℚ) : ∀ (a x : ℚ), x ∈ xs → xs.foldl min a ≤ x := by
  induction xs with
  | nil => intro a x hx; cases hx
  | cons y ys ih =>
      intro a x hx
      rcases List.mem_cons.mp hx with rfl | hx'
      · exact le_trans (foldl_min_le ys (min a x)) (min_le_right a x)
      · exact ih (min a y) x hx'

lemma listMin_le {qx : List ℚ} (x : ℚ) (hx : x ∈ qx) : listMin qx ≤ x := by
  cases qx with
  | nil => cases hx
  | cons y ys =>
      rcases List.mem_cons.mp hx with rfl | hx'
      · exact foldl_min_le ys x
      · exact foldl_min_le_mem ys y x hx'

lemma dotL_le (hi : ℚ) : ∀ v w : List ℚ, v.length = w.length → (∀ x ∈ w, 0 ≤ x) →
    (∀ x ∈ v, x ≤ hi) → dotL v w ≤ hi * w.sum := by
  intro v
  induction v with
  | nil =>
      intro w hlen _ _
      have hw : w = [] := List.length_eq_zero.mp hlen.symm
      subst hw
      simp [dotL]
  | cons a v ih =>
      intro w hlen hw hv
      cases w with
      | nil => simp at hlen
      | cons b wtl =>
          have hlen' : v.length = wtl.length := by simpa using hlen
          have hb : 0 ≤ b := hw b (List.mem_cons_self b wtl)
          have ha : a ≤ hi := hv a (List.mem_cons_self a v)
          have hrec := ih wtl hlen' (fun x hx => hw x (List.mem_cons_of_mem b hx))
            (fun x hx => hv x (List.mem_cons_of_mem a hx))
          simp only [dotL, List.zipWith_cons_cons, List.sum_cons] at hrec ⊢
          have hab : a * b ≤ hi * b := mul_le_mul_of_nonneg_right ha hb
          have hdist : hi * (b + wtl.sum) = hi * b + hi * wtl.sum := by ring
          rw [hdist]
          exact add_le_add hab hrec

lemma dotL_ge (lo : ℚ) : ∀ v w : List ℚ, v.length = w.length → (∀ x ∈ w, 0 ≤ x) →
    (∀ x ∈ v, lo ≤ x) → lo * w.sum ≤ dotL v w := by
  intro v
  induction v with
  | nil =>
      intro w hlen _ _
      have hw : w = [] := List.length_eq_zero.mp hlen.symm
      subst hw
      simp [dotL]
  | cons a v ih =>
      intro w hlen hw hv
      cases w with
      | nil => simp at hlen
      | cons b wtl =>
          have hlen' : v.length = wtl.length := by simpa using hlen
          have hb : 0 ≤ b := hw b (List.mem_cons_self b wtl)
          have ha : lo ≤ a := hv a (List.mem_cons_self a v)
          have hrec := ih wtl hlen' (fun x hx => hw x (List.mem_cons_of_mem b hx))
            (fun x hx => hv x (List.mem_cons_of_mem a hx))
          simp only [dotL, List.zipWith_cons_cons, List.sum_cons] at hrec ⊢
          have hab : lo * b ≤ a * b := mul_le_mul_of_nonneg_right ha hb
          have hdist : lo * (b + wtl.sum) = lo * b + lo * wtl.sum := by ring
          rw [hdist]
          exact add_le_add hab hrec

lemma sum_map_div (l : List ℚ) (c : ℚ) : (l.map (fun x => x / c)).sum = l.sum / c := by
  induction l with
  | nil => simp
  | cons x xs ih => simp [ih, add_div]

lemma triWeightsRaw_ge_one (wl : ℕ) : ∀ x ∈ triWeightsRaw wl, 1 ≤ x := by
  intro x hx
  rcases List.mem_map.mp hx with ⟨j, hj, rfl⟩
  have hjlt : j < wl := List.mem_range.mp hj
  have hj2 : (j : ℚ) ≤ 2 * ((wl / 2 : ℕ) : ℚ) := by
    have hn : j ≤ 2 * (wl / 2) := by omega
    calc (j : ℚ) ≤ ((2 * (wl / 2) : ℕ) : ℚ) := by exact_mod_cast hn
    _ = 2 * ((wl / 2 : ℕ) : ℚ) := by push_cast; ring
  have h0 : (0 : ℚ) ≤ (j : ℚ) := Nat.cast_nonneg j
  have habs : |(j : ℚ) - ((wl / 2 : ℕ) : ℚ)| ≤ ((wl / 2 : ℕ) : ℚ) :=
    abs_le.mpr ⟨by linarith, by linarith⟩
  linarith

lemma sum_ge_one_pos {l : List ℚ} (hne : l ≠ []) (h : ∀ x ∈ l, 1 ≤ x) : 0 < l.sum := by
  cases l with
  | nil => exact absurd rfl hne
  | cons x xs =>
      have hx : 1 ≤ x := h x (List.mem_cons_self x xs)
      have hxs : 0 ≤ xs.sum :=
        List.sum_nonneg (fun y hy => le_trans zero_le_one (h y (List.mem_cons_of_mem x hy)))
      simp only [List.sum_cons]
      linarith

lemma triWeightsRaw_length (wl : ℕ) : (triWeightsRaw wl).length = wl := by
  simp [triWeightsRaw]

lemma triWeightsRaw_sum_pos {wl : ℕ} (h : 1 ≤ wl) : 0 < (triWeightsRaw wl).sum := by
  refine sum_ge_one_pos ?_ (triWeightsRaw_ge_one wl)
  intro hnil
  have := triWeightsRaw_length wl
  rw [hnil] at this
  simp at this
  omega

/-- Length, nonnegativity, and unit-sum facts for the weight vector a
window uses (triangular-normalized or uniform). -/
lemma weightVec_facts (wl : ℕ) (h : 1 ≤ wl) (weighted : Bool) :
    (if weighted then normalizeW (triWeightsRaw wl) else uniformW wl).length = wl ∧
    (∀ x ∈ (if weighted then normalizeW (triWeightsRaw wl) else uniformW wl), 0 ≤ x) ∧
    (if weighted then normalizeW (triWeightsRaw wl) else uniformW wl).sum = 1 := by
  have hwl : ((wl : ℚ)) ≠ 0 := by
    have : (0 : ℚ) < (wl : ℚ) := by exact_mod_cast h
    linarith
  cases weighted with
  | false =>
      simp only [Bool.false_eq_true, if_false]
      refine ⟨by simp [uniformW], fun x hx => ?_, ?_⟩
      · rw [uniformW] at hx
        rcases List.mem_map.mp hx with ⟨j, _, rfl⟩
        positivity
      · rw [uniformW]
        have hrep : (List.range wl).map (fun _ => 1 / (wl : ℚ)) =
            List.replicate wl (1 / (wl : ℚ)) := by
          rw [List.map_const', List.length_range]
        rw [hrep, List.sum_replicate, nsmul_eq_mul, mul_one_div, div_self hwl]
  | true =>
      simp only [eq_self_iff_true, if_true]
      have hpos := triWeightsRaw_sum_pos h
      refine ⟨by simp [normalizeW, triWeightsRaw_length], fun x hx => ?_, ?_⟩
      · rw [normalizeW] at hx
        rcases List.mem_map.mp hx with ⟨t, ht, rfl⟩
        exact div_nonneg (le_trans zero_le_one (triWeightsRaw_ge_one wl t ht)) (le_of_lt hpos)
      · rw [normalizeW, sum_map_div, div_self (ne_of_gt hpos)]

lemma sliceL_mem {qx : List ℚ} {s e : ℕ} {x : ℚ} (hx : x ∈ sliceL qx s e) : x ∈ qx := by
  rw [sliceL] at hx
  exact List.mem_of_mem_drop (List.mem_of_mem_take hx)

lemma sliceL_length {qx : List ℚ} {s e : ℕ} (he : e ≤ qx.length) :
    (sliceL qx s e).length = e - s := by
  rw [sliceL, List.length_take, List.length_drop]
  omega

lemma dot_bounds_of_convex (qx v w : List ℚ) (hv : ∀ x ∈ v, x ∈ qx)
    (hlen : v.length = w.length) (hw0 : ∀ x ∈ w, 0 ≤ x) (hw1 : w.sum = 1) :
    listMin qx ≤ dotL v w ∧ dotL v w ≤ listMax qx := by
  constructor
  · have hge := dotL_ge (listMin qx) v w hlen hw0 (fun x hx => listMin_le x (hv x hx))
    rw [hw1, mul_one] at hge
    exact hge
  · have hle := dotL_le (listMax qx) v w hlen hw0 (fun x hx => le_listMax x (hv x hx))
    rw [hw1, mul_one] at hle
    exact hle

lemma maWindowValue_bounds (qx : List ℚ) (ws : ℕ) (hodd : ws % 2 = 1)
    (weighted : Bool) (i : ℕ) (hi : i < qx.length) :
    listMin qx ≤ maWindowValue qx ws weighted i ∧
    maWindowValue qx ws weighted i ≤ listMax qx := by
  simp only [maWindowValue]
  by_cases hb : i < ws / 2 ∨ qx.length - ws / 2 ≤ i
  · rw [if_pos hb]
    obtain ⟨hWlen, hW0, hW1⟩ :=
      weightVec_facts (min qx.length (i + ws / 2 + 1) - (i - ws / 2)) (by omega) weighted
    exact dot_bounds_of_convex qx _ _ (fun x hx => sliceL_mem hx)
      (by rw [sliceL_length (min_le_left _ _), hWlen]) hW0 hW1
  · rw [if_neg hb]
    push_neg at hb
    obtain ⟨hWlen, hW0, hW1⟩ := weightVec_facts ws (by omega) weighted
    have hslice : (sliceL qx (i - ws / 2) (min qx.length (i + ws / 2 + 1))).length = ws := by
      rw [sliceL_length (min_le_left _ _)]
      omega
    exact dot_bounds_of_convex qx _ _ (fun x hx => sliceL_mem hx)
      (by rw [hslice, hWlen]) hW0 hW1

/-- C10: the moving-average weights are positive and sum to one (both
the triangular-normalized vector and the uniform one, at every window
length, hence also at the re-normalized boundary windows), and every
smoothed value is a convex combination of raw values, so it lies
between the minimum and maximum of the raw series. -/
theorem moving_average_convex_bounds (qx : List ℚ) (hne : qx ≠ []) :
    (∀ wl, 1 ≤ wl →
      (normalizeW (triWeightsRaw wl)).sum = 1 ∧ (uniformW wl).sum = 1 ∧
      (∀ x ∈ normalizeW (triWeightsRaw wl), 0 < x) ∧
      (∀ x ∈ uniformW wl, 0 < x)) ∧
    (∀ (windowSize : ℕ) (weighted : Bool),
      ∀ y ∈ moving_average_smooth qx windowSize weighted,
        listMin qx ≤ y ∧ y ≤ listMax qx) := by
  constructor
  · intro wl hwl
    have htri := weightVec_facts wl hwl true
    have huni := weightVec_facts wl hwl false
    simp only [eq_self_iff_true, if_true] at htri
    simp only [Bool.false_eq_true, if_false] at huni
    refine ⟨htri.2.2, huni.2.2, fun x hx => ?_, fun x hx => ?_⟩
    · rw [normalizeW] at hx
      rcases List.mem_map.mp hx with ⟨t, ht, rfl⟩
      exact div_pos (lt_of_lt_of_le zero_lt_one (triWeightsRaw_ge_one wl t ht))
        (triWeightsRaw_sum_pos hwl)
    · rw [uniformW] at hx
      rcases List.mem_map.mp hx with ⟨j, _, rfl⟩
      have : (0 : ℚ) < (wl : ℚ) := by exact_mod_cast hwl
      positivity
  · intro windowSize weighted y hy
    rw [moving_average_smooth] at hy
    rcases List.mem_map.mp hy with ⟨i, hir, rfl⟩
    have hi : i < qx.length := List.mem_range.mp hir
    have hodd : (if windowSize % 2 = 0 then windowSize + 1 else windowSize) % 2 = 1 := by
      by_cases h : windowSize % 2 = 0 <;> simp [h] <;> omega
    exact maWindowValue_bounds qx _ hodd weighted i hi

lemma getD_zero_mem {l : List ℚ} (h : l ≠ []) : l.getD 0 0 ∈ l := by
  cases l with
  | nil => exact absurd rfl h
  | cons x xs => rw [List.getD_cons_zero]; exact List.mem_cons_self x xs

/-- Witness applying the moving-average bounds to a concrete series. -/
theorem moving_average_witness :
    listMin [1/2, 1/4, 3/4] ≤ (moving_average_smooth [1/2, 1/4, 3/4] 5 true).getD 0 0 ∧
    (moving_average_smooth [1/2, 1/4, 3/4] 5 true).getD 0 0 ≤ listMax [1/2, 1/4, 3/4] := by
  have hne : moving_average_smooth [1/2, 1/4, 3/4] 5 true ≠ [] := by
    intro h
    have hl := congrArg List.length h
    rw [moving_average_smooth] at hl
    simp at hl
  exact (moving_average_convex_bounds [1/2, 1/4, 3/4] (List.cons_ne_nil _ _)).2 5 true _
    (getD_zero_mem hne)

/-! ### Whittaker–Henderson graduation

Embedding of whittaker_henderson: build the order-k difference matrix D
by iterating np.diff on the identity, assemble
A = I + lambda·DᵀD + 1e-10·I, solve A·q_graduated = q_raw, and clip the
solution to [0,1].  The linear solve is expressed by Cramer's rule
(adjugate over determinant), which agrees with np.linalg.solve on every
nonsingular system. -/

/-- One application of np.diff along axis 0 (row i becomes row i+1
minus row i). -/
def diffStep (M : ℕ → ℕ → ℚ) : ℕ → ℕ → ℚ := fun i j => M (i + 1) j - M i j

/-- Iterated np.diff. -/
def diffIter : ℕ → (ℕ → ℕ → ℚ) → (ℕ → ℕ → ℚ)
  | 0, M => M
  | k + 1, M => diffStep (diffIter k M)

/-- The n×n identity as a plain function matrix. -/
def idMat (n : ℕ) : ℕ → ℕ → ℚ := fun i j => if i = j then 1 else 0

/-- Difference matrix D of order k: k-fold np.diff of the n×n identity;
it has n - k meaningful rows and n columns. -/
def whD (n order : ℕ) : ℕ → ℕ → ℚ := diffIter order (idMat n)

/-- Penalty matrix lambda·DᵀD. -/
def whPenalty (n order : ℕ) (lam : ℚ) : Matrix (Fin n) (Fin n) ℚ :=
  Matrix.of fun j k =>
    lam * ∑ i ∈ Finset.range (n - order), whD n order i j.val * whD n order i k.val

/-- Numerical regularization constant 1e-10 of the source. -/
def whEps : ℚ := 1 / 10 ^ 10

/-- System matrix A = I + lambda·DᵀD + 1e-10·I. -/
def whMatrix (n order : ℕ) (lam : ℚ) : Matrix (Fin n) (Fin n) ℚ :=
  1 + whPenalty n order lam + whEps • 1

/-- Linear solve by Cramer's rule: adjugate(A)·b / det(A), the unique
solution of A·x = b whenever det(A) ≠ 0. -/
def linSolve {n : ℕ} (A : Matrix (Fin n) (Fin n) ℚ) (b : Fin n → ℚ) : Fin n → ℚ :=
  fun i => (A.adjugate.mulVec b) i / A.det

/-- Clip to [0,1], as np.clip(x, 0, 1). -/
def clip01 (x : ℚ) : ℚ := max 0 (min x 1)

/-- Embedding of whittaker_henderson. -/
def whittaker_henderson (n order : ℕ) (lam : ℚ) (qx : Fin n → ℚ) : Fin n → ℚ :=
  fun i => clip01 (linSolve (whMatrix n order lam) qx i)

lemma whEps_pos : (0 : ℚ) < whEps := by norm_num [whEps]

lemma one_add_whEps_pos : (0 : ℚ) < 1 + whEps := by norm_num [whEps]

lemma whMatrix_lambda_zero (n order : ℕ) :
    whMatrix n order 0 = (1 + whEps) • (1 : Matrix (Fin n) (Fin n) ℚ) := by
  unfold whMatrix whPenalty
  ext a b
  simp only [Matrix.add_apply, Matrix.smul_apply, Matrix.of_apply, zero_mul,
    smul_eq_mul]
  by_cases hab : a = b <;> simp [Matrix.one_apply, hab]

lemma linSolve_smul_one {n : ℕ} (c : ℚ) (hc : c ≠ 0) (b : Fin n → ℚ) (i : Fin n) :
    linSolve (c • (1 : Matrix (Fin n) (Fin n) ℚ)) b i = b i / c := by
  unfold linSolve
  rw [Matrix.adjugate_smul, Matrix.adjugate_one, Matrix.det_smul, Matrix.det_one,
    Matrix.smul_mulVec_assoc, Matrix.one_mulVec]
  simp only [Fintype.card_fin, Pi.smul_apply, smul_eq_mul, mul_one]
  have hn : n = (n - 1) + 1 := by
    have := i.pos
    omega
  rw [show c ^ n = c ^ (n - 1) * c from by conv_lhs => rw [hn, pow_succ]]
  exact mul_div_mul_left (b i) c (pow_ne_zero _ hc)

/-- C7: with lambda = 0 the Whittaker–Henderson solve degenerates to
the pure fidelity term and returns the raw series within the 1e-10
regularization tolerance; for every lambda (and any input) the returned
series is elementwise within [0,1] because of the final clip. -/
theorem whittaker_henderson_spec (n order : ℕ) (qx : Fin n → ℚ)
    (hq : ∀ i, 0 ≤ qx i ∧ qx i ≤ 1) :
    (∀ i, |whittaker_henderson n order 0 qx i - qx i| ≤ whEps) ∧
    (∀ (lam : ℚ) (q : Fin n → ℚ) (i : Fin n),
      0 ≤ whittaker_henderson n order lam q i ∧
      whittaker_henderson n order lam q i ≤ 1) := by
  constructor
  · intro i
    have hc : (1 + whEps : ℚ) ≠ 0 := ne_of_gt one_add_whEps_pos
    have hsolve : whittaker_henderson n order 0 qx i = qx i / (1 + whEps) := by
      unfold whittaker_henderson
      rw [whMatrix_lambda_zero, linSolve_smul_one _ hc qx i]
      have h0 : 0 ≤ qx i / (1 + whEps) :=
        div_nonneg (hq i).1 (le_of_lt one_add_whEps_pos)
      have h1 : qx i / (1 + whEps) ≤ 1 := by
        rw [div_le_one one_add_whEps_pos]
        have := (hq i).2
        have := whEps_pos
        linarith
      rw [clip01, min_eq_left h1, max_eq_right h0]
    rw [hsolve]
    have ht0 := (hq i).1
    have ht1 := (hq i).2
    have hle : qx i / (1 + whEps) ≤ qx i :=
      div_le_self ht0 (by have := whEps_pos; linarith)
    rw [abs_sub_comm, abs_of_nonneg (by linarith)]
    have key : qx i - qx i / (1 + whEps) = qx i * whEps / (1 + whEps) := by
      field_simp
      ring
    rw [key]
    have h2 : qx i * whEps ≤ whEps := by
      have := mul_le_mul_of_nonneg_right ht1 (le_of_lt whEps_pos)
      linarith
    calc qx i * whEps / (1 + whEps) ≤ whEps / (1 + whEps) :=
          (div_le_div_right one_add_whEps_pos).mpr h2
      _ ≤ whEps := by
          rw [div_le_iff one_add_whEps_pos]
          nlinarith [whEps_pos]
  · intro lam q i
    unfold whittaker_henderson
    rw [clip01]
    exact ⟨le_max_left 0 _, max_le (by norm_num) (min_le_right _ 1)⟩

/-- Witness applying the Whittaker–Henderson theorem to a concrete
two-point series. -/
theorem whittaker_henderson_witness :
    (∀ i, |whittaker_henderson 2 3 0 ![1/2, 1/3] i - ![1/2, 1/3] i| ≤ whEps) ∧
    (∀ (lam : ℚ) (q : Fin 2 → ℚ) (i : Fin 2),
      0 ≤ whittaker_henderson 2 3 lam q i ∧
      whittaker_henderson 2 3 lam q i ≤ 1) :=
  whittaker_henderson_spec 2 3 ![1/2, 1/3]
    (by intro i; fin_cases i <;> constructor <;> norm_num)

end ADaaS
